import Mathlib

/-!
Shallow embedding of the botnode orchestration core: the entry-point wiring
in src/botnode/src/main.rs and the trading engine in src/botnode/src/trading.rs.

Conventions: a bounded spsc queue is represented by the list of its current
contents (oldest first); a consumer handle is represented by a record of the
engine it was minted from and its mint order; the wiring performed by main is
represented by a trace of observable events produced in program order.
-/

namespace Botnode

/-- Engines constructed in main.rs. A market-data engine is identified by the
position of its exchange in the configuration's exchange list together with
the exchange name. -/
inductive EngineKind
  | control
  | marketData (idx : Nat) (name : String)
  | indicator
  | trading
  | audit
  deriving DecidableEq

/-- A consumer handle minted by calling data_rx on an engine: records the
source engine and the order in which the handle was minted from it. -/
structure Rx where
  src : EngineKind
  serial : Nat
  deriving DecidableEq

/-- Configuration value delivered by the control engine; only the exchange
list drives the wiring in main.rs. -/
structure Config where
  exchanges : List String
  deriving DecidableEq

/-- Exchange names recognized by the match in main.rs lines 58-96: the arms
are "ftx" and "binance"; every other name falls to the catch-all arm. -/
def recognizedExchange (s : String) : Bool :=
  s == "ftx" || s == "binance"

/-- Number of recognized exchange names (with multiplicity) in a list. -/
def recognizedCount (xs : List String) : Nat :=
  (xs.filter recognizedExchange).length

/-- spsc_queue try_pop: non-blocking pop of the oldest element; on an empty
queue it returns none immediately. The returned list is the queue's contents
after the call. -/
def try_pop {α : Type} (q : List α) : Option α × List α :=
  match q with
  | [] => (none, [])
  | a :: rest => (some a, rest)

/-- TradingEngine::data_rx (trading.rs lines 34-37): creates a fresh bounded
queue, immediately drops the producer handle, and returns the consumer.
Nothing is ever pushed to the queue, so the consumer is forever the empty
queue; it is represented by its contents. -/
def TradingEngine.data_rx : List Unit := []

/-- Results of calling try_pop n times in a row on a queue whose producer has
been dropped (so no pushes can interleave), oldest call first. -/
def popTrace {α : Type} : List α → Nat → List (Option α)
  | _, 0 => []
  | q, n + 1 => (try_pop q).1 :: popTrace (try_pop q).2 n

/-- Outcome of one request for a consumer handle during wiring: either a
handle is returned to the caller, or the requesting call panics. -/
inductive WiringOutcome (α : Type)
  | handle (h : α)
  | panicked
  deriving DecidableEq

/-- Popping one pre-minted control-engine consumer from the pool built in
main.rs lines 44-47 (config_rxs.pop().unwrap()): the pool is represented by
the number of handles it still holds. On an empty pool Vec::pop returns None
and unwrap panics. -/
def poolPopRequest : Nat → WiringOutcome Nat
  | 0 => .panicked
  | n + 1 => .handle n

/-- Requesting a consumer of the trading engine's output:
TradingEngine::data_rx cannot fail (its return type is a plain consumer); it
returns a fresh dummy consumer on every call. -/
def tradingDataRxRequest : WiringOutcome (List Unit) :=
  .handle TradingEngine.data_rx

/-- Number of consumers of the trading engine's output provisioned by the
wiring in main.rs: no caller ever requests one. -/
def tradingProvisionedConsumers : Nat := 0

/-- Observable state of the async_shutdown token: whether shutdown has been
triggered. -/
structure ShutdownToken where
  triggered : Bool
  deriving DecidableEq

/-- shutdown() on the async_shutdown token: idempotent trigger. -/
def ShutdownToken.shutdown (_t : ShutdownToken) : ShutdownToken := ⟨true⟩

/-- Control decision taken by a loop body at the end of one iteration. -/
inductive LoopControl
  | next
  | exit
  deriving DecidableEq

/-- One iteration of run_trading_loop (trading.rs lines 52-60): try_pop the
market-data queue (the event, if any, is discarded), try_pop the indicator
queue (the event, if any, is logged). The body contains no break and no
return and never reads the _shutdown parameter, so control always proceeds to
the next iteration. -/
def run_trading_loop_iter {α β : Type} (md : List α) (ind : List β)
    (_shutdown : ShutdownToken) : (List α × List β) × LoopControl :=
  (((try_pop md).2, (try_pop ind).2), LoopControl.next)

/-- Fuel-indexed run of the trading loop: true iff the loop has returned
within n iterations, consulting the control decision of each iteration. -/
def run_trading_loop_returnsWithin {α β : Type} (md : List α) (ind : List β)
    (s : ShutdownToken) : Nat → Bool
  | 0 => false
  | n + 1 =>
    match run_trading_loop_iter md ind s with
    | (_, LoopControl.exit) => true
    | ((md', ind'), LoopControl.next) => run_trading_loop_returnsWithin md' ind' s n

/-- Signals for which the listener of handle_signals is registered
(main.rs line 123). -/
inductive HandledSignal
  | SIGINT
  | SIGTERM
  | SIGQUIT
  deriving DecidableEq

/-- Observable actions of handle_signals, in program order. -/
inductive SigEvent
  | logShuttingDown
  | callShutdownTrigger
  | stopListening
  | awaitCompletion
  | processExit (code : Nat)
  deriving DecidableEq

/-- handle_signals (main.rs lines 149-168) applied to the stream of delivered
signals: on the first signal it logs intent, calls shutdown.shutdown() and
breaks out of the listening loop; after the loop it awaits shutdown
completion and then exits the process with code 0. -/
def handle_signals : List HandledSignal → List SigEvent
  | [] => [SigEvent.awaitCompletion, SigEvent.processExit 0]
  | _ :: _ =>
    [SigEvent.logShuttingDown, SigEvent.callShutdownTrigger, SigEvent.stopListening,
     SigEvent.awaitCompletion, SigEvent.processExit 0]

/-- The panic hook installed in main.rs lines 33-37: logs the panic and calls
shutdown.shutdown() on the shared token. -/
def panicHook (shared : ShutdownToken) : ShutdownToken :=
  shared.shutdown

/-- Steps taken by a thread whose execution panics. -/
inductive ThreadEvent
  | panicHookRun
  | threadExit
  deriving DecidableEq

/-- Modelled from the spec: the runtime behavior of a panicking engine thread
(the thread runs the installed process panic hook and only afterwards exits;
spec sections 4.4 and 9 on panic-as-shutdown-trigger). Returns the thread's
step trace and the shared token after the hook ran. -/
def panickingThreadExit (shared : ShutdownToken) : List ThreadEvent × ShutdownToken :=
  ([ThreadEvent.panicHookRun, ThreadEvent.threadExit], panicHook shared)

/-- Observable wiring events of main.rs, in program order. -/
inductive Event
  | setPanicHook
  | mintRx (e : EngineKind)
  | start (ordinal : Nat) (e : EngineKind)
  | awaitConfig
  | logUnknown (name : String)
  deriving DecidableEq

/-- Insert into a string-keyed map represented as an association list;
an existing binding of the key is replaced (HashMap::insert). -/
def hmInsert (m : List (String × List Rx)) (k : String) (v : List Rx) :
    List (String × List Rx) :=
  match m with
  | [] => [(k, v)]
  | (k', v') :: rest => if k' = k then (k, v) :: rest else (k', v') :: hmInsert rest k v

/-- Lookup in a string-keyed association-list map. -/
def hmGet (m : List (String × List Rx)) (k : String) : Option (List Rx) :=
  match m with
  | [] => none
  | (k', v) :: rest => if k' = k then some v else hmGet rest k

/-- State threaded through the exchange loop of main.rs lines 55-97: the
number of control consumers left in the config_rxs pool, the event trace so
far, whether an unwrap on the pool has panicked, and the two market-data
consumer maps (market_data_rxs[0] and market_data_rxs[1]). -/
structure WireState where
  pool : Nat
  events : List Event
  panicked : Bool
  mdRxs0 : List (String × List Rx)
  mdRxs1 : List (String × List Rx)
  deriving DecidableEq

/-- Events of one recognized-exchange arm of the match (main.rs lines 59-92):
four data_rx calls on the fresh market-data engine, then its launch with
ordinal i+1. -/
def mdEvents (i : Nat) (name : String) : List Event :=
  [Event.mintRx (.marketData i name), Event.mintRx (.marketData i name),
   Event.mintRx (.marketData i name), Event.mintRx (.marketData i name),
   Event.start (i + 1) (.marketData i name)]

/-- One iteration of the exchange loop (main.rs lines 55-97) for the exchange
at absolute position i. A recognized name pops a control consumer from the
pool (panicking if the pool is empty), mints four market-data consumers — the
first two into market_data_rxs[0], the next two into market_data_rxs[1] — and
starts the engine with ordinal i+1; an unrecognized name only logs an error.
Once a panic has occurred no further work happens. -/
def wireStep (i : Nat) (name : String) (st : WireState) : WireState :=
  if st.panicked then st
  else if recognizedExchange name then
    match st.pool with
    | 0 => { st with panicked := true }
    | p + 1 =>
      { pool := p
        events := st.events ++ mdEvents i name
        panicked := false
        mdRxs0 := hmInsert st.mdRxs0 name
          [⟨.marketData i name, 0⟩, ⟨.marketData i name, 1⟩]
        mdRxs1 := hmInsert st.mdRxs1 name
          [⟨.marketData i name, 2⟩, ⟨.marketData i name, 3⟩] }
  else { st with events := st.events ++ [Event.logUnknown name] }

/-- The exchange loop of main.rs lines 55-97, iterating wireStep with the
enumeration index. -/
def exchangeLoop : List String → Nat → WireState → WireState
  | [], _, st => st
  | name :: rest, i, st => exchangeLoop rest (i + 1) (wireStep i name st)

/-- Events of main.rs lines 20-52 in program order: the panic hook is
installed, four control consumers are minted into the config_rxs pool, the
control engine is started with ordinal 0, and one consumer is popped from the
pool to await the configuration value. -/
def initEvents : List Event :=
  [Event.setPanicHook, Event.mintRx .control, Event.mintRx .control,
   Event.mintRx .control, Event.mintRx .control, Event.start 0 .control,
   Event.awaitConfig]

/-- Wiring state as of main.rs line 53: the pool holds the three control
consumers left after one was popped to await the configuration, and both
market-data consumer maps are empty. -/
def initState : WireState :=
  { pool := 3
    events := initEvents
    panicked := false
    mdRxs0 := []
    mdRxs1 := [] }

/-- Events of main.rs lines 99-120, given the length n of the exchange list:
the indicator engine is constructed (popping one more control consumer — that
pop is accounted for separately), the trading engine takes one consumer of
the indicator engine's output, and then the audit, trading and indicator
engines are started with ordinals n+2, n+3 and n+4. -/
def endEvents (n : Nat) : List Event :=
  [Event.mintRx .indicator, Event.start (n + 2) .audit,
   Event.start (n + 3) .trading, Event.start (n + 4) .indicator]

/-- Result of running the wiring of main: the event trace, whether wiring
completed (reaching the signal-handling loop) rather than panicking on an
exhausted config_rxs pool, the market-data consumer map handed to the trading
engine (market_data_rxs[0], popped second), the one handed to the indicator
engine (market_data_rxs[1], popped first), and the indicator-output consumer
handed to the trading engine. -/
structure MainResult where
  trace : List Event
  completed : Bool
  tradingMdRxs : List (String × List Rx)
  indicatorMdRxs : List (String × List Rx)
  indicatorRx : Option Rx
  deriving DecidableEq

/-- The wiring performed by main (main.rs lines 20-126): the initial control
stage, the exchange loop, then construction of the indicator engine (popping
one more control consumer — panicking if the pool is empty), construction of
the trading engine from market_data_rxs[0] and one indicator consumer, and
the launch of the audit, trading and indicator engines. On a panic the trace
stops where the panic occurred and no further engine exists. -/
def main (cfg : Config) : MainResult :=
  let st := exchangeLoop cfg.exchanges 0 initState
  if st.panicked then
    { trace := st.events, completed := false, tradingMdRxs := [],
      indicatorMdRxs := [], indicatorRx := none }
  else
    match st.pool with
    | 0 =>
      { trace := st.events, completed := false, tradingMdRxs := [],
        indicatorMdRxs := [], indicatorRx := none }
    | _ + 1 =>
      { trace := st.events ++ endEvents cfg.exchanges.length
        completed := true
        tradingMdRxs := st.mdRxs0
        indicatorMdRxs := st.mdRxs1
        indicatorRx := some ⟨.indicator, 0⟩ }

/-- Number of data_rx calls on engine e recorded in a trace. -/
def mintCount (e : EngineKind) (evs : List Event) : Nat :=
  evs.countP (fun ev => decide (ev = Event.mintRx e))

/-- Number of market-data engine launches recorded in a trace. -/
def mdStartCount (evs : List Event) : Nat :=
  evs.countP (fun ev =>
    match ev with
    | Event.start _ (EngineKind.marketData _ _) => true
    | _ => false)

/-- Checker for the mint-before-start discipline: scans a trace keeping the
set of engines already started; it fails iff some engine has a data_rx call
recorded after that engine's start. -/
def chkMintBeforeStart (started : List EngineKind) : List Event → Bool
  | [] => true
  | Event.mintRx e :: rest => decide (e ∉ started) && chkMintBeforeStart started rest
  | Event.start _ e :: rest => chkMintBeforeStart (e :: started) rest
  | _ :: rest => chkMintBeforeStart started rest

/-- Engines started by a trace, accumulated onto s. -/
def startsAcc (s : List EngineKind) : List Event → List EngineKind
  | [] => s
  | Event.start _ e :: rest => startsAcc (e :: s) rest
  | _ :: rest => startsAcc s rest

/-- Engines that can already have been started when the exchange loop is at
absolute index i: the control engine and market-data engines of earlier
indices. -/
def preIdx (i : Nat) : EngineKind → Prop
  | .control => True
  | .marketData k _ => k < i
  | .indicator => False
  | .trading => False
  | .audit => False

/-- Shape of the events the exchange loop can append from absolute index j
onward: data_rx calls and launches of market-data engines of index at least j
for recognized names (launch ordinal = index + 1), and unknown-exchange log
entries for unrecognized names. -/
def loopEvt (j : Nat) : Event → Prop
  | .mintRx (.marketData k nm) => j ≤ k ∧ recognizedExchange nm = true
  | .start o (.marketData k nm) => j ≤ k ∧ o = k + 1 ∧ recognizedExchange nm = true
  | .logUnknown nm => recognizedExchange nm = false
  | _ => False

/-! Helper lemmas about the wiring functions. -/

theorem exchangeLoop_cons (x : String) (rest : List String) (i : Nat) (st : WireState) :
    exchangeLoop (x :: rest) i st = exchangeLoop rest (i + 1) (wireStep i x st) := rfl

theorem wireStep_panicked_true {i : Nat} {name : String} {st : WireState}
    (h : st.panicked = true) : wireStep i name st = st := by
  simp [wireStep, h]

theorem wireStep_recognized_zero {i : Nat} {name : String} {st : WireState}
    (h1 : st.panicked = false) (h2 : recognizedExchange name = true) (h3 : st.pool = 0) :
    wireStep i name st = { st with panicked := true } := by
  simp [wireStep, h1, h2, h3]

theorem wireStep_recognized_succ {i : Nat} {name : String} {st : WireState} {p : Nat}
    (h1 : st.panicked = false) (h2 : recognizedExchange name = true) (h3 : st.pool = p + 1) :
    wireStep i name st =
      { pool := p
        events := st.events ++ mdEvents i name
        panicked := false
        mdRxs0 := hmInsert st.mdRxs0 name
          [⟨.marketData i name, 0⟩, ⟨.marketData i name, 1⟩]
        mdRxs1 := hmInsert st.mdRxs1 name
          [⟨.marketData i name, 2⟩, ⟨.marketData i name, 3⟩] } := by
  simp [wireStep, h1, h2, h3]

theorem wireStep_unrecognized {i : Nat} {name : String} {st : WireState}
    (h1 : st.panicked = false) (h2 : recognizedExchange name = false) :
    wireStep i name st = { st with events := st.events ++ [Event.logUnknown name] } := by
  simp [wireStep, h1, h2]

theorem exchangeLoop_panicked_mono :
    ∀ (xs : List String) (j : Nat) (st : WireState), st.panicked = true →
      (exchangeLoop xs j st).panicked = true := by
  intro xs
  induction xs with
  | nil => intro j st h; simpa [exchangeLoop] using h
  | cons x rest ih =>
    intro j st h
    rw [exchangeLoop_cons, wireStep_panicked_true h]
    exact ih _ _ h

theorem exchangeLoop_start_not_panicked {xs : List String} {j : Nat} {st : WireState}
    (h : (exchangeLoop xs j st).panicked = false) : st.panicked = false := by
  by_cases hp : st.panicked = true
  · rw [exchangeLoop_panicked_mono xs j st hp] at h
    exact absurd h (by simp)
  · simpa using hp

theorem loopEvt_mono {j j' : Nat} (h : j ≤ j') : ∀ ev, loopEvt j' ev → loopEvt j ev := by
  intro ev hev
  cases ev with
  | setPanicHook => exact hev.elim
  | awaitConfig => exact hev.elim
  | logUnknown nm => exact hev
  | mintRx e =>
    cases e with
    | marketData k nm => exact ⟨le_trans h hev.1, hev.2⟩
    | control => exact hev.elim
    | indicator => exact hev.elim
    | trading => exact hev.elim
    | audit => exact hev.elim
  | start o e =>
    cases e with
    | marketData k nm => exact ⟨le_trans h hev.1, hev.2.1, hev.2.2⟩
    | control => exact hev.elim
    | indicator => exact hev.elim
    | trading => exact hev.elim
    | audit => exact hev.elim

theorem loopEvt_mdEvents {j : Nat} {name : String} (h : recognizedExchange name = true) :
    ∀ ev ∈ mdEvents j name, loopEvt j ev := by
  intro ev hev
  simp only [mdEvents, List.mem_cons, List.not_mem_nil, or_false] at hev
  rcases hev with h1 | h1 | h1 | h1 | h1 <;> subst h1
  · exact ⟨le_refl j, h⟩
  · exact ⟨le_refl j, h⟩
  · exact ⟨le_refl j, h⟩
  · exact ⟨le_refl j, h⟩
  · exact ⟨le_refl j, rfl, h⟩

theorem exchangeLoop_shape :
    ∀ (xs : List String) (j : Nat) (st : WireState),
      ∃ tail, (exchangeLoop xs j st).events = st.events ++ tail ∧
        ∀ ev ∈ tail, loopEvt j ev := by
  intro xs
  induction xs with
  | nil =>
    intro j st
    exact ⟨[], by simp [exchangeLoop], by simp⟩
  | cons x rest ih =>
    intro j st
    obtain ⟨tail, h1, h2⟩ := ih (j + 1) (wireStep j x st)
    by_cases hp : st.panicked = true
    · refine ⟨tail, ?_, fun ev hev => loopEvt_mono (Nat.le_succ j) ev (h2 ev hev)⟩
      rw [wireStep_panicked_true hp] at h1
      rw [exchangeLoop_cons, wireStep_panicked_true hp]
      exact h1
    · have hp' : st.panicked = false := by simpa using hp
      by_cases hr : recognizedExchange x = true
      · cases hpool : st.pool with
        | zero =>
          refine ⟨tail, ?_, fun ev hev => loopEvt_mono (Nat.le_succ j) ev (h2 ev hev)⟩
          rw [wireStep_recognized_zero hp' hr hpool] at h1
          rw [exchangeLoop_cons, wireStep_recognized_zero hp' hr hpool]
          exact h1
        | succ p =>
          refine ⟨mdEvents j x ++ tail, ?_, ?_⟩
          · rw [wireStep_recognized_succ hp' hr hpool] at h1
            rw [exchangeLoop_cons, wireStep_recognized_succ hp' hr hpool, h1]
            simp
          · intro ev hev
            rcases List.mem_append.mp hev with hin | hin
            · exact loopEvt_mdEvents hr ev hin
            · exact loopEvt_mono (Nat.le_succ j) ev (h2 ev hin)
      · have hr' : recognizedExchange x = false := by simpa using hr
        refine ⟨Event.logUnknown x :: tail, ?_, ?_⟩
        · rw [wireStep_unrecognized hp' hr'] at h1
          rw [exchangeLoop_cons, wireStep_unrecognized hp' hr', h1]
          simp
        · intro ev hev
          rcases List.mem_cons.mp hev with hin | hin
          · subst hin; exact hr'
          · exact loopEvt_mono (Nat.le_succ j) ev (h2 ev hin)

theorem recognizedCount_cons_true {x : String} {rest : List String}
    (h : recognizedExchange x = true) :
    recognizedCount (x :: rest) = recognizedCount rest + 1 := by
  simp [recognizedCount, List.filter_cons, h]

theorem recognizedCount_cons_false {x : String} {rest : List String}
    (h : recognizedExchange x = false) :
    recognizedCount (x :: rest) = recognizedCount rest := by
  simp [recognizedCount, List.filter_cons, h]

theorem exchangeLoop_pool :
    ∀ (xs : List String) (j : Nat) (st : WireState),
      (exchangeLoop xs j st).panicked = false →
      recognizedCount xs ≤ st.pool ∧
      (exchangeLoop xs j st).pool = st.pool - recognizedCount xs := by
  intro xs
  induction xs with
  | nil =>
    intro j st _
    exact ⟨by simp [recognizedCount], by simp [exchangeLoop, recognizedCount]⟩
  | cons x rest ih =>
    intro j st h
    have hp : st.panicked = false := exchangeLoop_start_not_panicked h
    rw [exchangeLoop_cons] at h ⊢
    by_cases hr : recognizedExchange x = true
    · cases hpool : st.pool with
      | zero =>
        exfalso
        rw [wireStep_recognized_zero hp hr hpool] at h
        have := exchangeLoop_panicked_mono rest (j + 1) { st with panicked := true } (by simp)
        rw [this] at h
        exact absurd h (by simp)
      | succ p =>
        rw [wireStep_recognized_succ hp hr hpool] at h ⊢
        obtain ⟨hle, heq⟩ := ih (j + 1) _ h
        simp only at hle heq
        rw [recognizedCount_cons_true hr, heq]
        exact ⟨by omega, by omega⟩
    · have hr' : recognizedExchange x = false := by simpa using hr
      rw [wireStep_unrecognized hp hr'] at h ⊢
      obtain ⟨hle, heq⟩ := ih (j + 1) _ h
      simp only at hle heq
      rw [recognizedCount_cons_false hr']
      exact ⟨hle, heq⟩

/-! Lemmas about the association-list model of HashMap. -/

theorem hmGet_hmInsert_self (m : List (String × List Rx)) (k : String) (v : List Rx) :
    hmGet (hmInsert m k v) k = some v := by
  induction m with
  | nil => simp [hmInsert, hmGet]
  | cons p rest ih =>
    obtain ⟨k', v'⟩ := p
    by_cases h : k' = k
    · simp [hmInsert, hmGet, h]
    · simp [hmInsert, hmGet, h, ih]

theorem hmGet_hmInsert_ne (m : List (String × List Rx)) (k k' : String) (v : List Rx)
    (h : k' ≠ k) : hmGet (hmInsert m k v) k' = hmGet m k' := by
  induction m with
  | nil =>
    simp only [hmInsert, hmGet]
    rw [if_neg (fun hh => h hh.symm)]
  | cons p rest ih =>
    obtain ⟨k2, v2⟩ := p
    by_cases h2 : k2 = k
    · subst h2
      simp only [hmInsert, if_pos rfl, hmGet]
      rw [if_neg (fun hh => h hh.symm), if_neg (fun hh => h hh.symm)]
    · simp only [hmInsert, if_neg h2, hmGet]
      by_cases h3 : k2 = k'
      · simp [h3]
      · simp [h3, ih]

theorem exchangeLoop_hmGet_notin :
    ∀ (xs : List String) (j : Nat) (st : WireState) (k : String), k ∉ xs →
      hmGet (exchangeLoop xs j st).mdRxs0 k = hmGet st.mdRxs0 k ∧
      hmGet (exchangeLoop xs j st).mdRxs1 k = hmGet st.mdRxs1 k := by
  intro xs
  induction xs with
  | nil => intro j st k _; simp [exchangeLoop]
  | cons x rest ih =>
    intro j st k hk
    have hkx : k ≠ x := fun h => hk (h ▸ List.mem_cons_self x rest)
    have hkrest : k ∉ rest := fun h => hk (List.mem_cons_of_mem x h)
    rw [exchangeLoop_cons]
    obtain ⟨ih0, ih1⟩ := ih (j + 1) (wireStep j x st) k hkrest
    rw [ih0, ih1]
    by_cases hp : st.panicked = true
    · rw [wireStep_panicked_true hp]
      exact ⟨rfl, rfl⟩
    · have hp' : st.panicked = false := by simpa using hp
      by_cases hr : recognizedExchange x = true
      · cases hpool : st.pool with
        | zero =>
          rw [wireStep_recognized_zero hp' hr hpool]
          exact ⟨rfl, rfl⟩
        | succ p =>
          rw [wireStep_recognized_succ hp' hr hpool]
          exact ⟨hmGet_hmInsert_ne _ _ _ _ hkx, hmGet_hmInsert_ne _ _ _ _ hkx⟩
      · have hr' : recognizedExchange x = false := by simpa using hr
        rw [wireStep_unrecognized hp' hr']
        exact ⟨rfl, rfl⟩

/-! Lemmas about mint counts. -/

theorem mintCount_append (e : EngineKind) (a b : List Event) :
    mintCount e (a ++ b) = mintCount e a + mintCount e b := by
  simp [mintCount, List.countP_append]

theorem mintCount_eq_zero_of (e : EngineKind) (evs : List Event)
    (h : ∀ ev ∈ evs, ev ≠ Event.mintRx e) : mintCount e evs = 0 := by
  rw [mintCount, List.countP_eq_zero]
  intro ev hev
  simpa using h ev hev

theorem mintCount_loopEvt_lt {j i : Nat} {name : String} (tail : List Event)
    (htail : ∀ ev ∈ tail, loopEvt j ev) (hij : i < j) :
    mintCount (.marketData i name) tail = 0 := by
  apply mintCount_eq_zero_of
  intro ev hev heq
  subst heq
  have := htail _ hev
  exact absurd this.1 (by omega)

/-! Branch equations for main and a decomposition of its trace. -/

theorem main_def_panicked {cfg : Config}
    (hp : (exchangeLoop cfg.exchanges 0 initState).panicked = true) :
    main cfg =
      { trace := (exchangeLoop cfg.exchanges 0 initState).events, completed := false,
        tradingMdRxs := [], indicatorMdRxs := [], indicatorRx := none } := by
  simp [main, hp]

theorem main_def_pool_zero {cfg : Config}
    (hp : (exchangeLoop cfg.exchanges 0 initState).panicked = false)
    (h0 : (exchangeLoop cfg.exchanges 0 initState).pool = 0) :
    main cfg =
      { trace := (exchangeLoop cfg.exchanges 0 initState).events, completed := false,
        tradingMdRxs := [], indicatorMdRxs := [], indicatorRx := none } := by
  simp [main, hp, h0]

theorem main_def_completed {cfg : Config} {p : Nat}
    (hp : (exchangeLoop cfg.exchanges 0 initState).panicked = false)
    (h0 : (exchangeLoop cfg.exchanges 0 initState).pool = p + 1) :
    main cfg =
      { trace := (exchangeLoop cfg.exchanges 0 initState).events ++
          endEvents cfg.exchanges.length
        completed := true
        tradingMdRxs := (exchangeLoop cfg.exchanges 0 initState).mdRxs0
        indicatorMdRxs := (exchangeLoop cfg.exchanges 0 initState).mdRxs1
        indicatorRx := some ⟨.indicator, 0⟩ } := by
  simp [main, hp, h0]

theorem main_trace_shape (cfg : Config) :
    ∃ ltail etail, (main cfg).trace = initEvents ++ ltail ++ etail ∧
      (∀ ev ∈ ltail, loopEvt 0 ev) ∧
      (etail = [] ∨ etail = endEvents cfg.exchanges.length) := by
  obtain ⟨tail, h1, h2⟩ := exchangeLoop_shape cfg.exchanges 0 initState
  have hinit : initState.events = initEvents := rfl
  rw [hinit] at h1
  by_cases hp : (exchangeLoop cfg.exchanges 0 initState).panicked = true
  · refine ⟨tail, [], ?_, h2, Or.inl rfl⟩
    rw [main_def_panicked hp]
    simpa using h1
  · have hp' : (exchangeLoop cfg.exchanges 0 initState).panicked = false := by simpa using hp
    cases h0 : (exchangeLoop cfg.exchanges 0 initState).pool with
    | zero =>
      refine ⟨tail, [], ?_, h2, Or.inl rfl⟩
      rw [main_def_pool_zero hp' h0]
      simpa using h1
    | succ p =>
      refine ⟨tail, endEvents cfg.exchanges.length, ?_, h2, Or.inr rfl⟩
      rw [main_def_completed hp' h0]
      simp [h1]

/-- C6: the panic hook installed by main calls shutdown on the shared token,
so after any engine thread panics — the hook runs before the thread exits —
process-wide shutdown has been requested; and the hook is installed as the
very first wiring step of main, before any engine is started. -/
theorem c6_panic_hook_triggers_shutdown :
    (∀ t : ShutdownToken, (panickingThreadExit t).2.triggered = true) ∧
    (∀ t : ShutdownToken,
      (panickingThreadExit t).1 = [ThreadEvent.panicHookRun, ThreadEvent.threadExit]) ∧
    (∀ cfg : Config, (main cfg).trace.head? = some Event.setPanicHook) := by
  refine ⟨fun t => rfl, fun t => rfl, fun cfg => ?_⟩
  obtain ⟨ltail, etail, h1, _, _⟩ := main_trace_shape cfg
  rw [h1]
  simp [initEvents]

/-- C8: the control engine is started first with ordinal 0, and main blocks
awaiting the configuration value before any other engine is constructed or
launched: the trace begins with the fixed control-stage prefix (panic hook,
four control consumer mints, control start with ordinal 0, configuration
await), the prefix contains no start and no mint of any other engine, and the
remainder contains no further control start and no further configuration
await. -/
theorem c8_control_engine_first (cfg : Config) :
    ∃ rest, (main cfg).trace = initEvents ++ rest ∧
      (∀ o e, Event.start o e ∈ initEvents → o = 0 ∧ e = EngineKind.control) ∧
      (∀ e, Event.mintRx e ∈ initEvents → e = EngineKind.control) ∧
      Event.start 0 EngineKind.control ∈ initEvents ∧
      Event.awaitConfig ∈ initEvents ∧
      (∀ o, Event.start o EngineKind.control ∉ rest) ∧
      Event.awaitConfig ∉ rest := by
  obtain ⟨ltail, etail, h1, h2, h3⟩ := main_trace_shape cfg
  refine ⟨ltail ++ etail, by simpa using h1, ?_, ?_, by simp [initEvents], by simp [initEvents],
    ?_, ?_⟩
  · intro o e hmem
    simp only [initEvents, List.mem_cons, List.not_mem_nil, or_false] at hmem
    rcases hmem with h | h | h | h | h | h | h <;> simp_all
  · intro e hmem
    simp only [initEvents, List.mem_cons, List.not_mem_nil, or_false] at hmem
    rcases hmem with h | h | h | h | h | h | h <;> simp_all
  · intro o hmem
    rcases List.mem_append.mp hmem with hin | hin
    · have := h2 _ hin
      simp [loopEvt] at this
    · rcases h3 with he | he <;> subst he <;> simp [endEvents] at hin
  · intro hmem
    rcases List.mem_append.mp hmem with hin | hin
    · have := h2 _ hin
      simp [loopEvt] at this
    · rcases h3 with he | he <;> subst he <;> simp [endEvents] at hin

/-- C8 witness: the control-first decomposition instantiated on the
configuration with the single exchange ftx. -/
theorem c8_control_engine_first_witness :
    ∃ rest, (main ⟨["ftx"]⟩).trace = initEvents ++ rest ∧
      (∀ o e, Event.start o e ∈ initEvents → o = 0 ∧ e = EngineKind.control) ∧
      (∀ e, Event.mintRx e ∈ initEvents → e = EngineKind.control) ∧
      Event.start 0 EngineKind.control ∈ initEvents ∧
      Event.awaitConfig ∈ initEvents ∧
      (∀ o, Event.start o EngineKind.control ∉ rest) ∧
      Event.awaitConfig ∉ rest :=
  c8_control_engine_first ⟨["ftx"]⟩

/-- C9: for every configuration with more than two recognized exchange names,
main panics while wiring: the config_rxs pool (three handles left after the
configuration await) is exhausted by the recognized exchanges, so wiring never
completes, the indicator engine never mints its consumer for the trading
engine, and the audit, trading and indicator engines are never started. -/
theorem c9_pool_exhaustion (cfg : Config) (h : 3 ≤ recognizedCount cfg.exchanges) :
    (main cfg).completed = false ∧
    Event.mintRx EngineKind.indicator ∉ (main cfg).trace ∧
    (∀ o, Event.start o EngineKind.indicator ∉ (main cfg).trace) ∧
    (∀ o, Event.start o EngineKind.trading ∉ (main cfg).trace) ∧
    (∀ o, Event.start o EngineKind.audit ∉ (main cfg).trace) := by
  obtain ⟨tail, hev, htail⟩ := exchangeLoop_shape cfg.exchanges 0 initState
  have hinit : initState.events = initEvents := rfl
  rw [hinit] at hev
  have hmain : main cfg =
      { trace := (exchangeLoop cfg.exchanges 0 initState).events, completed := false,
        tradingMdRxs := [], indicatorMdRxs := [], indicatorRx := none } := by
    by_cases hp : (exchangeLoop cfg.exchanges 0 initState).panicked = true
    · exact main_def_panicked hp
    · have hp' : (exchangeLoop cfg.exchanges 0 initState).panicked = false := by simpa using hp
      obtain ⟨hle, heq⟩ := exchangeLoop_pool cfg.exchanges 0 initState hp'
      have hpool0 : (exchangeLoop cfg.exchanges 0 initState).pool = 0 := by
        have hi : initState.pool = 3 := rfl
        rw [hi] at hle heq
        omega
      exact main_def_pool_zero hp' hpool0
  rw [hmain]
  refine ⟨rfl, ?_, ?_, ?_, ?_⟩
  · rw [hev]
    intro hmem
    rcases List.mem_append.mp hmem with hin | hin
    · simp [initEvents] at hin
    · have := htail _ hin
      simp [loopEvt] at this
  · intro o
    rw [hev]
    intro hmem
    rcases List.mem_append.mp hmem with hin | hin
    · simp [initEvents] at hin
    · have := htail _ hin
      simp [loopEvt] at this
  · intro o
    rw [hev]
    intro hmem
    rcases List.mem_append.mp hmem with hin | hin
    · simp [initEvents] at hin
    · have := htail _ hin
      simp [loopEvt] at this
  · intro o
    rw [hev]
    intro hmem
    rcases List.mem_append.mp hmem with hin | hin
    · simp [initEvents] at hin
    · have := htail _ hin
      simp [loopEvt] at this

/-- C9 witness: the configuration with exchange list ftx, binance, ftx has
three recognized names; main never completes on it and never starts the
audit, trading or indicator engine. -/
theorem c9_pool_exhaustion_witness :
    3 ≤ recognizedCount ["ftx", "binance", "ftx"] ∧
    (main ⟨["ftx", "binance", "ftx"]⟩).completed = false ∧
    (∀ o, Event.start o EngineKind.indicator ∉ (main ⟨["ftx", "binance", "ftx"]⟩).trace) := by
  refine ⟨by decide, ?_, ?_⟩
  · exact (c9_pool_exhaustion ⟨["ftx", "binance", "ftx"]⟩ (by decide)).1
  · exact (c9_pool_exhaustion ⟨["ftx", "binance", "ftx"]⟩ (by decide)).2.2.1

/-- C4: on the configuration whose exchange list is ftx followed by
bogus-exchange, wiring completes, exactly one market-data engine is launched
(for ftx, with ordinal 1), the unknown exchange is logged as an error without
aborting, and the audit, trading and indicator engines are all still
launched; moreover, for every configuration a started market-data engine
always serves a recognized name, and the loop iteration for an unrecognized
name only appends an error-log event, leaving the pool, the consumer maps and
the panic flag untouched. -/
theorem c4_unknown_exchange_tolerance :
    ((main ⟨["ftx", "bogus-exchange"]⟩).completed = true ∧
     mdStartCount (main ⟨["ftx", "bogus-exchange"]⟩).trace = 1 ∧
     Event.start 1 (.marketData 0 "ftx") ∈ (main ⟨["ftx", "bogus-exchange"]⟩).trace ∧
     Event.logUnknown "bogus-exchange" ∈ (main ⟨["ftx", "bogus-exchange"]⟩).trace ∧
     Event.start 4 EngineKind.audit ∈ (main ⟨["ftx", "bogus-exchange"]⟩).trace ∧
     Event.start 5 EngineKind.trading ∈ (main ⟨["ftx", "bogus-exchange"]⟩).trace ∧
     Event.start 6 EngineKind.indicator ∈ (main ⟨["ftx", "bogus-exchange"]⟩).trace) ∧
    (∀ (cfg : Config) (o i : Nat) (nm : String),
      Event.start o (.marketData i nm) ∈ (main cfg).trace →
        recognizedExchange nm = true) ∧
    (∀ (i : Nat) (nm : String) (st : WireState), st.panicked = false →
      recognizedExchange nm = false →
      wireStep i nm st = { st with events := st.events ++ [Event.logUnknown nm] }) := by
  refine ⟨by decide, ?_, fun i nm st h1 h2 => wireStep_unrecognized h1 h2⟩
  intro cfg o i nm hmem
  obtain ⟨ltail, etail, h1, h2, h3⟩ := main_trace_shape cfg
  simp only [List.append_assoc] at h1
  rw [h1] at hmem
  rcases List.mem_append.mp hmem with hin | hin
  · simp [initEvents] at hin
  · rcases List.mem_append.mp hin with hin2 | hin2
    · exact (h2 _ hin2).2.2
    · rcases h3 with he | he <;> subst he
      · simp at hin2
      · simp [endEvents] at hin2

/-- C4 witness: applying the unrecognized-name iteration fact at a concrete
input: the loop step for bogus-exchange at index 0 on the initial wiring
state only appends the error-log event. -/
theorem c4_unknown_exchange_tolerance_witness :
    wireStep 0 "bogus-exchange" initState =
      { initState with
        events := initState.events ++ [Event.logUnknown "bogus-exchange"] } :=
  c4_unknown_exchange_tolerance.2.2 0 "bogus-exchange" initState (by decide) (by decide)

/-! Lemmas for the mint-before-start discipline. -/

theorem startsAcc_append (s : List EngineKind) (a b : List Event) :
    startsAcc s (a ++ b) = startsAcc (startsAcc s a) b := by
  induction a generalizing s with
  | nil => rfl
  | cons ev rest ih => cases ev <;> simp [startsAcc, ih]

theorem chkMBS_append (s : List EngineKind) (a b : List Event) :
    chkMintBeforeStart s (a ++ b) =
      (chkMintBeforeStart s a && chkMintBeforeStart (startsAcc s a) b) := by
  induction a generalizing s with
  | nil => simp [chkMintBeforeStart, startsAcc]
  | cons ev rest ih =>
    cases ev <;> simp [chkMintBeforeStart, startsAcc, ih, Bool.and_assoc]

theorem preIdx_mono {j j' : Nat} (h : j ≤ j') {e : EngineKind} (he : preIdx j e) :
    preIdx j' e := by
  cases e with
  | control => trivial
  | marketData k nm => exact lt_of_lt_of_le he h
  | indicator => exact he.elim
  | trading => exact he.elim
  | audit => exact he.elim

theorem chkMBS_exchangeLoop :
    ∀ (xs : List String) (j : Nat) (st : WireState) (s : List EngineKind),
      (∀ e ∈ s, preIdx j e) →
      ∃ tail, (exchangeLoop xs j st).events = st.events ++ tail ∧
        chkMintBeforeStart s tail = true ∧
        (∀ e ∈ startsAcc s tail, preIdx (j + xs.length) e) := by
  intro xs
  induction xs with
  | nil =>
    intro j st s hs
    exact ⟨[], by simp [exchangeLoop], rfl, by simpa [startsAcc] using hs⟩
  | cons x rest ih =>
    intro j st s hs
    have hs' : ∀ e ∈ s, preIdx (j + 1) e := fun e he => preIdx_mono (Nat.le_succ j) (hs e he)
    have hlen : (j + 1) + rest.length ≤ j + (x :: rest).length := by
      simp [List.length_cons]
      omega
    by_cases hp : st.panicked = true
    · obtain ⟨tail, h1, h2, h3⟩ := ih (j + 1) (wireStep j x st) s hs'
      rw [wireStep_panicked_true hp] at h1
      refine ⟨tail, ?_, h2, fun e he => preIdx_mono hlen (h3 e he)⟩
      rw [exchangeLoop_cons, wireStep_panicked_true hp]
      exact h1
    · have hp' : st.panicked = false := by simpa using hp
      by_cases hr : recognizedExchange x = true
      · cases hpool : st.pool with
        | zero =>
          obtain ⟨tail, h1, h2, h3⟩ := ih (j + 1) (wireStep j x st) s hs'
          rw [wireStep_recognized_zero hp' hr hpool] at h1
          refine ⟨tail, ?_, h2, fun e he => preIdx_mono hlen (h3 e he)⟩
          rw [exchangeLoop_cons, wireStep_recognized_zero hp' hr hpool]
          exact h1
        | succ p =>
          have hnot : EngineKind.marketData j x ∉ s := by
            intro hmem
            exact absurd (hs _ hmem) (lt_irrefl j)
          have hsmd : ∀ e ∈ (EngineKind.marketData j x :: s), preIdx (j + 1) e := by
            intro e he
            rcases List.mem_cons.mp he with h | h
            · subst h
              exact Nat.lt_succ_self j
            · exact hs' e h
          obtain ⟨tail, h1, h2, h3⟩ :=
            ih (j + 1) (wireStep j x st) (EngineKind.marketData j x :: s) hsmd
          rw [wireStep_recognized_succ hp' hr hpool] at h1
          simp only at h1
          have hchk : chkMintBeforeStart s (mdEvents j x) = true := by
            simp [mdEvents, chkMintBeforeStart, hnot]
          have hacc : startsAcc s (mdEvents j x) = EngineKind.marketData j x :: s := by
            simp [mdEvents, startsAcc]
          refine ⟨mdEvents j x ++ tail, ?_, ?_, ?_⟩
          · rw [exchangeLoop_cons, wireStep_recognized_succ hp' hr hpool, h1]
            simp
          · rw [chkMBS_append, hchk, hacc, h2]
            rfl
          · intro e he
            rw [startsAcc_append, hacc] at he
            exact preIdx_mono hlen (h3 e he)
      · have hr' : recognizedExchange x = false := by simpa using hr
        obtain ⟨tail, h1, h2, h3⟩ := ih (j + 1) (wireStep j x st) s hs'
        rw [wireStep_unrecognized hp' hr'] at h1
        simp only at h1
        refine ⟨Event.logUnknown x :: tail, ?_, ?_, ?_⟩
        · rw [exchangeLoop_cons, wireStep_unrecognized hp' hr', h1]
          simp
        · simpa [chkMintBeforeStart] using h2
        · intro e he
          have : startsAcc s (Event.logUnknown x :: tail) = startsAcc s tail := rfl
          rw [this] at he
          exact preIdx_mono hlen (h3 e he)

/-- C7: in the wiring of main, for every configuration, every data_rx
consumer mint on an engine occurs before that engine is started: the
mint-before-start checker accepts the whole wiring trace. -/
theorem c7_mint_before_start (cfg : Config) :
    chkMintBeforeStart [] (main cfg).trace = true := by
  have hsinit : ∀ e ∈ [EngineKind.control], preIdx 0 e := by
    intro e he
    rcases List.mem_cons.mp he with h | h
    · subst h; trivial
    · simp at h
  obtain ⟨tail, h1, h2, h3⟩ :=
    chkMBS_exchangeLoop cfg.exchanges 0 initState [EngineKind.control] hsinit
  have hinitev : initState.events = initEvents := rfl
  rw [hinitev] at h1
  have hinit1 : chkMintBeforeStart [] initEvents = true := by decide
  have hinit2 : startsAcc [] initEvents = [EngineKind.control] := by decide
  by_cases hp : (exchangeLoop cfg.exchanges 0 initState).panicked = true
  · rw [main_def_panicked hp]
    simp only
    rw [h1, chkMBS_append, hinit1, hinit2, h2]
    rfl
  · have hp' : (exchangeLoop cfg.exchanges 0 initState).panicked = false := by simpa using hp
    cases h0 : (exchangeLoop cfg.exchanges 0 initState).pool with
    | zero =>
      rw [main_def_pool_zero hp' h0]
      simp only
      rw [h1, chkMBS_append, hinit1, hinit2, h2]
      rfl
    | succ p =>
      rw [main_def_completed hp' h0]
      simp only
      have hindnot : EngineKind.indicator ∉ startsAcc [EngineKind.control] tail := by
        intro hmem
        exact (h3 _ hmem).elim
      have hend : chkMintBeforeStart (startsAcc [EngineKind.control] tail)
          (endEvents cfg.exchanges.length) = true := by
        simp [endEvents, chkMintBeforeStart, hindnot]
      rw [h1, List.append_assoc, chkMBS_append, hinit1, hinit2, chkMBS_append, h2, hend]
      rfl

/-! Lemmas for the per-exchange fan-out bookkeeping. -/

theorem nodup_get?_unique :
    ∀ (l : List String), l.Nodup → ∀ (i k : Nat) (a : String),
      l.get? i = some a → l.get? k = some a → i = k := by
  intro l
  induction l with
  | nil =>
    intro _ i k a hi _
    simp [List.get?] at hi
  | cons x rest ih =>
    intro hnd i k a hi hk
    obtain ⟨hx, hrest⟩ := List.nodup_cons.mp hnd
    cases i with
    | zero =>
      cases k with
      | zero => rfl
      | succ k' =>
        exfalso
        simp only [List.get?] at hi hk
        obtain rfl : x = a := by injection hi
        exact hx (List.get?_mem hk)
    | succ i' =>
      cases k with
      | zero =>
        exfalso
        simp only [List.get?] at hi hk
        obtain rfl : x = a := by injection hk
        exact hx (List.get?_mem hi)
      | succ k' =>
        simp only [List.get?] at hi hk
        exact congrArg Nat.succ (ih hrest i' k' a hi hk)

theorem mintCount_mdEvents (i : Nat) (name : String) :
    mintCount (.marketData i name) (mdEvents i name) = 4 := by
  simp [mintCount, mdEvents, List.countP_cons]

theorem mintCount_mdEvents_ne {i i' : Nat} {name name' : String} (h : i ≠ i') :
    mintCount (.marketData i name) (mdEvents i' name') = 0 := by
  apply mintCount_eq_zero_of
  intro ev hev heq
  subst heq
  simp only [mdEvents, List.mem_cons, List.not_mem_nil, or_false] at hev
  rcases hev with h1 | h1 | h1 | h1 | h1 <;> simp_all

theorem mintCount_md_initEvents (n : Nat) (nm : String) :
    mintCount (.marketData n nm) initEvents = 0 := by
  apply mintCount_eq_zero_of
  intro ev hev heq
  subst heq
  simp [initEvents] at hev

theorem mintCount_md_endEvents (n k : Nat) (nm : String) :
    mintCount (.marketData k nm) (endEvents n) = 0 := by
  apply mintCount_eq_zero_of
  intro ev hev heq
  subst heq
  simp [endEvents] at hev

theorem mintCount_logUnknown (e : EngineKind) (nm : String) :
    mintCount e [Event.logUnknown nm] = 0 := by
  apply mintCount_eq_zero_of
  intro ev hev heq
  subst heq
  simp at hev

theorem exchangeLoop_md_entry :
    ∀ (xs : List String) (j : Nat) (st : WireState) (i : Nat) (name : String),
      xs.get? i = some name →
      recognizedExchange name = true →
      (∀ k, xs.get? k = some name → k = i) →
      (exchangeLoop xs j st).panicked = false →
      mintCount (.marketData (j + i) name) st.events = 0 →
      hmGet (exchangeLoop xs j st).mdRxs0 name =
        some [⟨.marketData (j + i) name, 0⟩, ⟨.marketData (j + i) name, 1⟩] ∧
      hmGet (exchangeLoop xs j st).mdRxs1 name =
        some [⟨.marketData (j + i) name, 2⟩, ⟨.marketData (j + i) name, 3⟩] ∧
      mintCount (.marketData (j + i) name) (exchangeLoop xs j st).events = 4 := by
  intro xs
  induction xs with
  | nil =>
    intro j st i name hget
    exact absurd hget (by simp [List.get?])
  | cons x rest ih =>
    intro j st i name hget hrec huniq hpan hcount
    have hp0 : st.panicked = false := exchangeLoop_start_not_panicked hpan
    cases i with
    | zero =>
      have hx : x = name := by simpa [List.get?] using hget
      subst hx
      cases hpool : st.pool with
      | zero =>
        exfalso
        rw [exchangeLoop_cons, wireStep_recognized_zero hp0 hrec hpool] at hpan
        have := exchangeLoop_panicked_mono rest (j + 1) { st with panicked := true } (by simp)
        rw [this] at hpan
        exact absurd hpan (by simp)
      | succ p =>
        have hnotin : x ∉ rest := by
          intro hmem
          obtain ⟨k, hk⟩ := List.get?_of_mem hmem
          have : k + 1 = 0 := huniq (k + 1) (by simpa [List.get?] using hk)
          omega
        rw [exchangeLoop_cons, wireStep_recognized_succ hp0 hrec hpool] at hpan ⊢
        obtain ⟨hg0, hg1⟩ := exchangeLoop_hmGet_notin rest (j + 1) _ x hnotin
        obtain ⟨tail, hev, htail⟩ := exchangeLoop_shape rest (j + 1) _
        rw [hg0, hg1, hev]
        simp only [Nat.add_zero]
        refine ⟨?_, ?_, ?_⟩
        · exact hmGet_hmInsert_self _ _ _
        · exact hmGet_hmInsert_self _ _ _
        · rw [mintCount_append, mintCount_append]
          simp only [Nat.add_zero] at hcount
          rw [hcount, mintCount_mdEvents, mintCount_loopEvt_lt tail htail (Nat.lt_succ_self j)]
    | succ i' =>
      have hget' : rest.get? i' = some name := by simpa [List.get?] using hget
      have huniq' : ∀ k, rest.get? k = some name → k = i' := by
        intro k hk
        have : k + 1 = i' + 1 := huniq (k + 1) (by simpa [List.get?] using hk)
        omega
      have hidx : j + (i' + 1) = (j + 1) + i' := by omega
      rw [hidx] at hcount ⊢
      rw [exchangeLoop_cons] at hpan ⊢
      have hne : (j + 1) + i' ≠ j := by omega
      by_cases hr : recognizedExchange x = true
      · cases hpool : st.pool with
        | zero =>
          exfalso
          rw [wireStep_recognized_zero hp0 hr hpool] at hpan
          have := exchangeLoop_panicked_mono rest (j + 1) { st with panicked := true } (by simp)
          rw [this] at hpan
          exact absurd hpan (by simp)
        | succ p =>
          rw [wireStep_recognized_succ hp0 hr hpool] at hpan ⊢
          apply ih (j + 1) _ i' name hget' hrec huniq' hpan
          simp only
          rw [mintCount_append, hcount, mintCount_mdEvents_ne hne]
      · have hr' : recognizedExchange x = false := by simpa using hr
        rw [wireStep_unrecognized hp0 hr'] at hpan ⊢
        apply ih (j + 1) _ i' name hget' hrec huniq' hpan
        simp only
        rw [mintCount_append, hcount, mintCount_logUnknown]

/-- C2: for every configuration without duplicate exchange names whose wiring
completes, and every recognized exchange name in its list, the market-data
engine constructed for that exchange has its output fanned out to exactly two
downstream consumer groups — the group of two consumers handed to the trading
engine via market_data_rxs[0] and the group of two handed to the indicator
engine via market_data_rxs[1] — and, since exactly four consumers are minted
from that engine in total, there is no other consumer of its output. -/
theorem c2_md_two_consumer_groups (cfg : Config) (hnd : cfg.exchanges.Nodup)
    (hcomp : (main cfg).completed = true) (i : Nat) (name : String)
    (hget : cfg.exchanges.get? i = some name) (hrec : recognizedExchange name = true) :
    hmGet (main cfg).tradingMdRxs name =
      some [⟨.marketData i name, 0⟩, ⟨.marketData i name, 1⟩] ∧
    hmGet (main cfg).indicatorMdRxs name =
      some [⟨.marketData i name, 2⟩, ⟨.marketData i name, 3⟩] ∧
    mintCount (.marketData i name) (main cfg).trace = 4 := by
  have hp' : (exchangeLoop cfg.exchanges 0 initState).panicked = false := by
    by_cases hp : (exchangeLoop cfg.exchanges 0 initState).panicked = true
    · rw [main_def_panicked hp] at hcomp
      exact absurd hcomp (by simp)
    · simpa using hp
  obtain ⟨p, h0⟩ : ∃ p, (exchangeLoop cfg.exchanges 0 initState).pool = p + 1 := by
    cases h0 : (exchangeLoop cfg.exchanges 0 initState).pool with
    | zero =>
      rw [main_def_pool_zero hp' h0] at hcomp
      exact absurd hcomp (by simp)
    | succ p => exact ⟨p, rfl⟩
  have huniq : ∀ k, cfg.exchanges.get? k = some name → k = i :=
    fun k hk => nodup_get?_unique cfg.exchanges hnd k i name hk hget
  have hcount0 : mintCount (.marketData (0 + i) name) initState.events = 0 := by
    have : initState.events = initEvents := rfl
    rw [this]
    exact mintCount_md_initEvents _ _
  obtain ⟨hg0, hg1, hcnt⟩ :=
    exchangeLoop_md_entry cfg.exchanges 0 initState i name hget hrec huniq hp' hcount0
  simp only [Nat.zero_add] at hg0 hg1 hcnt
  rw [main_def_completed hp' h0]
  refine ⟨hg0, hg1, ?_⟩
  rw [mintCount_append, hcnt, mintCount_md_endEvents]

/-- C2 witness: on the configuration with the single exchange ftx, the
market-data engine at position 0 has consumer group serials 0 and 1 in the
trading-bound map, serials 2 and 3 in the indicator-bound map, and exactly
four consumers minted in total. -/
theorem c2_md_two_consumer_groups_witness :
    hmGet (main ⟨["ftx"]⟩).tradingMdRxs "ftx" =
      some [⟨.marketData 0 "ftx", 0⟩, ⟨.marketData 0 "ftx", 1⟩] ∧
    hmGet (main ⟨["ftx"]⟩).indicatorMdRxs "ftx" =
      some [⟨.marketData 0 "ftx", 2⟩, ⟨.marketData 0 "ftx", 3⟩] ∧
    mintCount (.marketData 0 "ftx") (main ⟨["ftx"]⟩).trace = 4 :=
  c2_md_two_consumer_groups ⟨["ftx"]⟩ (by decide) (by decide) 0 "ftx" (by decide) (by decide)

/-! Claims about the trading engine's dummy consumer and the fan-out
over-subscription behavior. -/

/-- C1 counterexample: TradingEngine::data_rx, called although zero consumers
of the trading engine's output were provisioned, does not fail loudly: it
returns a handle, and the handle is a non-functional placeholder (five
successive try_pop calls all return none). -/
theorem c1_counterexample :
    tradingProvisionedConsumers = 0 ∧
    tradingDataRxRequest ≠ WiringOutcome.panicked ∧
    tradingDataRxRequest = WiringOutcome.handle TradingEngine.data_rx ∧
    popTrace TradingEngine.data_rx 5 = [none, none, none, none, none] := by
  refine ⟨rfl, ?_, rfl, rfl⟩
  intro h
  simp [tradingDataRxRequest] at h

/-- C1 (amended): popping a control-engine consumer handle from the config_rxs
pool in main fails deterministically (unwrap panic) exactly on the empty pool
and yields a handle otherwise; but TradingEngine::data_rx never fails: every
call, although zero consumers of the trading output are provisioned, silently
returns a fresh dummy consumer whose producer is dropped, a non-functional
placeholder that never delivers an event. -/
theorem c1_oversubscription_behavior :
    poolPopRequest 0 = WiringOutcome.panicked ∧
    (∀ n : Nat, poolPopRequest (n + 1) = WiringOutcome.handle n) ∧
    tradingProvisionedConsumers = 0 ∧
    tradingDataRxRequest = WiringOutcome.handle TradingEngine.data_rx ∧
    (∀ n : Nat, popTrace TradingEngine.data_rx n = List.replicate n none) := by
  refine ⟨rfl, fun n => rfl, rfl, rfl, fun n => ?_⟩
  induction n with
  | zero => rfl
  | succ n ih =>
    simpa [popTrace, try_pop, TradingEngine.data_rx, List.replicate_succ] using ih

/-- C10: every consumer handle returned by TradingEngine::data_rx is a fresh
queue whose producer handle is dropped with nothing ever pushed, so every
try_pop on it returns no value: a consumer minted from the trading engine's
output never delivers an event, no matter how often it is polled. -/
theorem c10_trading_data_rx_never_delivers :
    ∀ n : Nat, popTrace TradingEngine.data_rx n = List.replicate n none := by
  intro n
  induction n with
  | zero => rfl
  | succ n ih =>
    simpa [popTrace, try_pop, TradingEngine.data_rx, List.replicate_succ] using ih

/-- C3: the trading loop never checks the cancellation token and never
returns: one iteration's result does not depend on the shutdown token, every
iteration decides to continue, and for every fuel bound and every token state
the loop has not returned. -/
theorem c3_trading_loop_never_polls_never_returns :
    ∀ (α β : Type) (md : List α) (ind : List β) (s1 s2 : ShutdownToken) (n : Nat),
      run_trading_loop_iter md ind s1 = run_trading_loop_iter md ind s2 ∧
      (run_trading_loop_iter md ind s1).2 = LoopControl.next ∧
      run_trading_loop_returnsWithin md ind s1 n = false := by
  intro α β md ind s1 s2 n
  refine ⟨rfl, rfl, ?_⟩
  induction n generalizing md ind with
  | zero => rfl
  | succ n ih =>
    simp only [run_trading_loop_returnsWithin, run_trading_loop_iter]
    exact ih _ _

/-- C5: on receipt of the first delivered signal (necessarily SIGINT, SIGTERM
or SIGQUIT, the registered set), handle_signals logs intent, calls the
shutdown trigger exactly once, stops listening, then awaits the
shutdown-completion barrier, and only after that barrier step does it
terminate the process, with exit code 0. -/
theorem c5_signal_handler :
    ∀ (s : HandledSignal) (rest : List HandledSignal),
      handle_signals (s :: rest) =
        [SigEvent.logShuttingDown, SigEvent.callShutdownTrigger, SigEvent.stopListening,
         SigEvent.awaitCompletion, SigEvent.processExit 0] ∧
      (handle_signals (s :: rest)).countP
        (fun ev => decide (ev = SigEvent.callShutdownTrigger)) = 1 := by
  intro s rest
  exact ⟨rfl, rfl⟩

end Botnode
